import Mathlib

/-!
Verification of the block lattice reduction core (BKZ / SD-BKZ / Slide Reduction)
declared in `fplll/bkz.h`, against its natural-language specification.

The header contains, inline, the bodies of the five `_ex` wrappers
(`svp_reduction_ex`, `tour_ex`, `sd_tour_ex`, `hkz_ex`, `slide_tour_ex`) and the
`BKZAutoAbort` constructor; those are embedded directly from the source.  The
bodies of the remaining operations (`test_abort`, `svp_reduction`, `slide_tour`,
`bkz`, `rerandomize_block`, `svp_postprocessing`, `set_status`) live in a
translation unit that is not part of the source tree; those operations are
modelled from the specification text, as indicated by their doc comments.

Exceptions (`throw` / `catch (RedStatus &e)`) are embedded as `Except RedStatus`
values; the mutable members `status` and the `bool &clean` out-parameter are
threaded as explicit state.  C++ `double` values are embedded as exact rationals
(only orderings and products of slopes matter to the claims settled here).
-/

namespace BKZ

open Finset Submodule Set

/-- Status codes of the reduction, from `defs.h` as listed by the specification. -/
inductive RedStatus where
  | RED_SUCCESS
  | RED_BKZ_FAILURE
  | RED_BKZ_TIME_LIMIT
  | RED_BKZ_LOOPS_LIMIT
  | RED_ENUM_FAILURE
  | RED_BABAI_FAILURE
  | RED_LLL_FAILURE
deriving DecidableEq

/-- The observable state touched by an `_ex` wrapper: the `status` member of
`BKZReduction` and the caller's `bool &clean` out-parameter. -/
structure ExState where
  status : RedStatus
  clean : Bool
deriving DecidableEq

/-- Modelled from the spec: the body of `BKZReduction::set_status` is not under
`src/` (only its declaration is).  Per the specification, an `_ex` boundary
"catches a numeric/reducer fault thrown from any inner step, writes it to
`status`, and converts to a boolean success indicator".  The model writes the
new status and returns whether that status is `RED_SUCCESS`. -/
def set_status (newStatus : RedStatus) : RedStatus × Bool :=
  (newStatus, decide (newStatus = RedStatus.RED_SUCCESS))

/-- Embedding of `BKZReduction::svp_reduction_ex` (bkz.h, lines 190-202).
The inner call `svp_reduction(kappa, block_size, param, dual)` either returns a
clean flag or throws a `RedStatus`; its outcome is the `inner` argument. -/
def svp_reduction_ex (inner : Except RedStatus Bool) (st : ExState) : ExState × Bool :=
  match inner with
  | Except.ok c => (ExState.mk st.status c, true)
  | Except.error e =>
      let r := set_status e
      (ExState.mk r.1 st.clean, r.2)

/-- Embedding of `BKZReduction::tour_ex` (bkz.h, lines 250-262); the outcome of
the inner `tour(loop, kappa_max, param, min_row, max_row)` is `inner`. -/
def tour_ex (inner : Except RedStatus Bool) (st : ExState) : ExState × Bool :=
  match inner with
  | Except.ok c => (ExState.mk st.status c, true)
  | Except.error e =>
      let r := set_status e
      (ExState.mk r.1 st.clean, r.2)

/-- Embedding of `BKZReduction::sd_tour_ex` (bkz.h, lines 306-317); the outcome
of the inner `sd_tour(loop, param, min_row, max_row)` is `inner`. -/
def sd_tour_ex (inner : Except RedStatus Bool) (st : ExState) : ExState × Bool :=
  match inner with
  | Except.ok c => (ExState.mk st.status c, true)
  | Except.error e =>
      let r := set_status e
      (ExState.mk r.1 st.clean, r.2)

/-- Embedding of `BKZReduction::hkz_ex` (bkz.h, lines 362-373); the outcome of
the inner `hkz(kappa_max, param, min_row, max_row)` is `inner`. -/
def hkz_ex (inner : Except RedStatus Bool) (st : ExState) : ExState × Bool :=
  match inner with
  | Except.ok c => (ExState.mk st.status c, true)
  | Except.error e =>
      let r := set_status e
      (ExState.mk r.1 st.clean, r.2)

/-- Embedding of `BKZReduction::slide_tour_ex` (bkz.h, lines 418-429); the
outcome of the inner `slide_tour(loop, param, min_row, max_row)` is `inner`. -/
def slide_tour_ex (inner : Except RedStatus Bool) (st : ExState) : ExState × Bool :=
  match inner with
  | Except.ok c => (ExState.mk st.status c, true)
  | Except.error e =>
      let r := set_status e
      (ExState.mk r.1 st.clean, r.2)

/-- The value `std::numeric_limits<double>::max()`, i.e. the largest finite
IEEE-754 binary64 value, as an exact rational: `(2^53 - 1) * 2^971`. -/
def dblMax : ℚ := (2 ^ 53 - 1) * 2 ^ 971

/-- State of the auto-abort monitor (`BKZAutoAbort` members, bkz.h lines 73-78). -/
structure AutoAbortState where
  old_slope : ℚ
  no_dec : Int
  num_rows : Int
  start_row : Int
deriving DecidableEq

/-- Embedding of the `BKZAutoAbort` constructor (bkz.h, lines 47-51):
`old_slope` is initialized to `numeric_limits<double>::max()` and `no_dec`
to `-1`. -/
def autoAbortInit (num_rows start_row : Int) : AutoAbortState :=
  AutoAbortState.mk dblMax (-1) num_rows start_row

/-- Modelled from the spec: the body of `BKZAutoAbort::test_abort` is not under
`src/` (only its declaration, bkz.h line 71, is).  Per the specification: the
monitor computes the current slope (a least-squares fit over the basis profile,
passed here as `new_slope` since the GSO module is an external collaborator);
if `new_slope > scale * old_slope` it increments `no_dec`, otherwise it resets
`no_dec` to `0` and records `old_slope := new_slope`; it returns
`no_dec >= max_no_dec`. -/
def test_abort (st : AutoAbortState) (new_slope scale : ℚ) (maxNoDec : Int) :
    AutoAbortState × Bool :=
  if scale * st.old_slope < new_slope then
    let st1 := AutoAbortState.mk st.old_slope (st.no_dec + 1) st.num_rows st.start_row
    (st1, decide (maxNoDec ≤ st1.no_dec))
  else
    let st1 := AutoAbortState.mk new_slope 0 st.num_rows st.start_row
    (st1, decide (maxNoDec ≤ st1.no_dec))

/-- Default value of the `scale` parameter of `test_abort` (bkz.h, line 71). -/
def test_abort_default_scale : ℚ := 1

/-- Default value of the `maxNoDec` parameter of `test_abort` (bkz.h, line 71). -/
def test_abort_default_max_no_dec : Int := 5

/-- Modelled from the spec: the body of `BKZReduction::svp_reduction` is not
under `src/` (only its declaration, bkz.h line 165, is).  Per the
specification, the block reduction records `r_old := r[kappa]`, runs
preprocess / enumerate / postprocess (an arbitrary transformation `inner` of
the Gram-Schmidt profile `r`), and the clean flag is set to false iff the
post-call `r[kappa]` strictly decreases below the tolerance
`delta * r_old[kappa]`. -/
def svp_reduction (delta : ℚ) (kappa : Nat) (inner : (Nat → ℚ) → (Nat → ℚ))
    (r : Nat → ℚ) : (Nat → ℚ) × Bool :=
  let rOld := r kappa
  let rNew := inner r
  (rNew, decide (delta * rOld ≤ rNew kappa))

/-- Outcome of a slide-reduction tour: either a completed tour with the new
basis and its clean flag, or a parameter fault reported with the basis as it
stood when the fault was raised. -/
inductive SlideOutcome (α : Type) where
  | ok (basis : α) (clean : Bool)
  | paramFault (basis : α)

/-- Modelled from the spec: the body of `BKZReduction::slide_tour` is not under
`src/` (only its declaration, bkz.h line 393, is).  Per the specification,
slide reduction "Requires `(max_row - min_row)` divisible by beta; otherwise
report a parameter error", and a parameter fault is "Reported synchronously
before any basis mutation; the basis is unchanged".  The actual sweeps over
primal and dual blocks are the transformation `inner`. -/
def slide_tour {α : Type} (min_row max_row beta : Int) (inner : α → α × Bool)
    (basis : α) : SlideOutcome α :=
  if (max_row - min_row) % beta ≠ 0 then
    SlideOutcome.paramFault basis
  else
    let p := inner basis
    SlideOutcome.ok p.1 p.2

/-- Oracle trace of one run of the driver `bkz()`: the budgets and flags from
the parameter object, and, for every iteration index, the observed outcome of
the time check, the auto-abort check and the selected tour (the tour either
returns a clean flag or throws a `RedStatus`, which the `_ex` wrapper records).
`tourB` is the effect of the iteration's tour on the basis, and `finalLLL` is
the effect of the post-loop LLL call on `[0, d)`. -/
structure DriverEnv (α : Type) where
  maxLoops : Int
  maxTimeOn : Bool
  autoAbortOn : Bool
  timeExceeded : Nat → Bool
  abortTest : Nat → Bool
  tourRes : Nat → Except RedStatus Bool
  tourB : Nat → α → α
  finalLLL : α → α

/-- Modelled from the spec: the body of `BKZReduction::bkz` is not under `src/`
(only its declaration, bkz.h line 441, is).  Main loop per the specification
pseudocode: at each tour boundary, first the loop budget is checked, then the
time budget, then auto-abort (only for `loop > 0`); then the selected tour
runs, a fault breaks with the wrapper's status, a clean tour breaks with
`RED_SUCCESS`, otherwise the loop counter is incremented.  `fuel` bounds the
recursion; `none` means the trace was longer than the supplied fuel. -/
def bkz_loop {α : Type} (env : DriverEnv α) : Nat → Nat → α → Option (RedStatus × α)
  | 0, _, _ => none
  | fuel + 1, loop, b =>
    if 0 < env.maxLoops ∧ env.maxLoops ≤ (loop : Int) then
      some (RedStatus.RED_BKZ_LOOPS_LIMIT, b)
    else if env.maxTimeOn ∧ env.timeExceeded loop = true then
      some (RedStatus.RED_BKZ_TIME_LIMIT, b)
    else if env.autoAbortOn ∧ 0 < loop ∧ env.abortTest loop = true then
      some (RedStatus.RED_SUCCESS, b)
    else
      match env.tourRes loop with
      | Except.error e => some (e, env.tourB loop b)
      | Except.ok clean =>
        if clean then some (RedStatus.RED_SUCCESS, env.tourB loop b)
        else bkz_loop env fuel (loop + 1) (env.tourB loop b)

/-- Modelled from the spec: the driver `bkz()`.  Runs the main loop from
iteration `0`, then runs one final LLL on `[0, d)` to normalize the output,
and returns `status == RED_SUCCESS`.  The result is the final status, the
final basis, and the boolean return value. -/
def bkz {α : Type} (env : DriverEnv α) (fuel : Nat) (b0 : α) :
    Option (RedStatus × α × Bool) :=
  match bkz_loop env fuel 0 b0 with
  | none => none
  | some p => some (p.1, env.finalLLL p.2, decide (p.1 = RedStatus.RED_SUCCESS))

/-- Basis resulting from running the tours of iterations `j, j+1, ..., j+k-1`
of the trace `env`, in program order, starting from basis `b`. -/
def tourIterFrom {α : Type} (env : DriverEnv α) : Nat → Nat → α → α
  | _, 0, b => b
  | j, k + 1, b => tourIterFrom env (j + 1) k (env.tourB j b)

/-- Action of an integer matrix on a family of vectors of a commutative group:
row `i` of the result is the integer combination of the `f k` with
coefficients `T i k`.  This is how every basis row operation of the engine
acts on the basis. -/
def mulFam {r n : Nat} {V : Type} [AddCommGroup V]
    (T : Matrix (Fin r) (Fin n) Int) (f : Fin n → V) : Fin r → V :=
  fun i => ∑ k, T i k • f k

/-- A strictly lower triangular integer matrix: all entries on or above the
diagonal vanish. -/
def StrictlyLower {n : Nat} (N : Matrix (Fin n) (Fin n) Int) : Prop :=
  ∀ i j : Fin n, i ≤ j → N i j = 0

/-- All entries of the matrix lie in `{-1, 0, 1}`. -/
def EntriesIn101 {r n : Nat} (M : Matrix (Fin r) (Fin n) Int) : Prop :=
  ∀ i j, M i j = -1 ∨ M i j = 0 ∨ M i j = 1

/-- Modelled from the spec: the body of `BKZReduction::rerandomize_block` is
not under `src/` (only its declaration, bkz.h line 457, is).  Per the
specification it (1) applies a random permutation `sigma` to the rows,
(2) adds to each row a signed-unit combination of lower-indexed rows, i.e.
multiplies by `1 + N` with `N` strictly lower triangular with entries in
`{-1, 0, 1}` (the `density` parameter only bounds the number of nonzero
entries of `N` and is immaterial to the lattice-invariance claim), and
(3) LLL-reduces the result; LLL acts by an invertible integer matrix `U`. -/
def rerandomize_block {n : Nat} {V : Type} [AddCommGroup V]
    (sigma : Equiv.Perm (Fin n)) (N U : Matrix (Fin n) (Fin n) Int)
    (B : Fin n → V) : Fin n → V :=
  mulFam U (mulFam (1 + N) (fun i => B (sigma i)))

/-- The candidate vector inserted by postprocessing: the combination of the
block rows `B` with the solution coefficients `s` returned by enumeration. -/
def combo {n : Nat} {V : Type} [AddCommGroup V] (s : Fin n → Int) (B : Fin n → V) : V :=
  ∑ j, s j • B j

/-- Modelled from the spec: the unit-head insertion path of
`BKZReduction::svp_postprocessing` (declared bkz.h line 142; body not under
`src/`).  When the solution has a unit head at index `k` (`s k = ±1` and
`s j = 0` for `j > k`), the combination is inserted at the head of the block
and the now linearly dependent row `k` is dropped directly. -/
def unitHeadInsert {n : Nat} {V : Type} [AddCommGroup V]
    (s : Fin (n + 1) → Int) (k : Fin (n + 1)) (B : Fin (n + 1) → V) :
    Fin (n + 1) → V :=
  Fin.cons (combo s B) (fun i : Fin n => B (k.succAbove i))

/-- Modelled from the spec: the extension step of
`BKZReduction::svp_postprocessing_generic` (declared bkz.h lines 494-495; body
not under `src/`).  The combination is prepended to the block, yielding a
linearly dependent family of `beta + 1` vectors. -/
def extendInsert {n : Nat} {V : Type} [AddCommGroup V]
    (s : Fin (n + 1) → Int) (B : Fin (n + 1) → V) : Fin (n + 2) → V :=
  Fin.cons (combo s B) B

/-- Modelled from the spec: the generic insertion path of
`BKZReduction::svp_postprocessing_generic`.  LLL runs on the extended family
(acting by an invertible integer matrix `U`), produces a zero row at position
`z` (detected as `r[.] = 0`), and that zero row is removed. -/
def genericInsert {n : Nat} {V : Type} [AddCommGroup V]
    (s : Fin (n + 1) → Int) (U : Matrix (Fin (n + 2)) (Fin (n + 2)) Int)
    (z : Fin (n + 2)) (B : Fin (n + 1) → V) : Fin (n + 1) → V :=
  fun i => mulFam U (extendInsert s B) (z.succAbove i)

/-- The coefficient pattern of the one linear dependency of the extended
family `extendInsert s B`: one unit of the new head minus the solution
coefficients on the original rows. -/
def genericW {n : Nat} (s : Fin (n + 1) → Int) : Fin (n + 2) → ℚ :=
  Fin.cons 1 (fun j => -(s j : ℚ))

/-- A concrete driver trace used to exercise the loop-budget theorem: two
loops allowed, tours never clean, time and auto-abort both firing from
iteration 2 on (so that at the boundary of iteration 2 all three checks hold
and the order of the checks is observable). -/
def sampleDriverEnv : DriverEnv Nat :=
  DriverEnv.mk 2 true true
    (fun i => decide (2 ≤ i)) (fun i => decide (2 ≤ i))
    (fun _ => Except.ok false) (fun _ b => b + 1) (fun b => b * 10)

/-- A concrete block of two basis rows (the standard basis of the plane),
used to exercise the postprocessing theorem. -/
def sampleBasis : Fin 2 → Fin 2 → ℚ :=
  fun i j => if i = j then 1 else 0

/-- A concrete solution vector with a unit head at index 1. -/
def sampleS : Fin 2 → Int := ![0, 1]

/-- A concrete solution vector with no unit head (generic path). -/
def sampleSg : Fin 2 → Int := ![2, 3]

/-- A concrete unimodular matrix standing for the LLL run of the generic
path: it reduces the extended family `(2 b0 + 3 b1, b0, b1)` to
`(0, b0, b1)`, producing the zero row at position 0. -/
def sampleU : Matrix (Fin 3) (Fin 3) Int :=
  Matrix.of ![![1, -2, -3], ![0, 1, 0], ![0, 0, 1]]

/-!  Theorems. -/

/-- C2: if the inner operation of an `_ex` wrapper (`svp_reduction_ex`,
`tour_ex`, `sd_tour_ex`, `hkz_ex`, `slide_tour_ex`) throws a reducer fault
`e`, the wrapper records `e` in the `status` field and returns `false`; if the
inner operation does not throw, the wrapper returns `true` and stores the
inner result in the `clean` out-parameter. -/
theorem ex_wrappers_catch_and_status (e : RedStatus) (c : Bool) (st : ExState)
    (he : e ≠ RedStatus.RED_SUCCESS) :
    ((svp_reduction_ex (Except.error e) st).2 = false ∧
      (svp_reduction_ex (Except.error e) st).1.status = e ∧
      (svp_reduction_ex (Except.ok c) st).2 = true ∧
      (svp_reduction_ex (Except.ok c) st).1.clean = c) ∧
    ((tour_ex (Except.error e) st).2 = false ∧
      (tour_ex (Except.error e) st).1.status = e ∧
      (tour_ex (Except.ok c) st).2 = true ∧
      (tour_ex (Except.ok c) st).1.clean = c) ∧
    ((sd_tour_ex (Except.error e) st).2 = false ∧
      (sd_tour_ex (Except.error e) st).1.status = e ∧
      (sd_tour_ex (Except.ok c) st).2 = true ∧
      (sd_tour_ex (Except.ok c) st).1.clean = c) ∧
    ((hkz_ex (Except.error e) st).2 = false ∧
      (hkz_ex (Except.error e) st).1.status = e ∧
      (hkz_ex (Except.ok c) st).2 = true ∧
      (hkz_ex (Except.ok c) st).1.clean = c) ∧
    ((slide_tour_ex (Except.error e) st).2 = false ∧
      (slide_tour_ex (Except.error e) st).1.status = e ∧
      (slide_tour_ex (Except.ok c) st).2 = true ∧
      (slide_tour_ex (Except.ok c) st).1.clean = c) := by
  simp [svp_reduction_ex, tour_ex, sd_tour_ex, hkz_ex, slide_tour_ex, set_status, he]

/-- Witness for C2 at a concrete fault and a concrete clean result. -/
theorem ex_wrappers_catch_and_status_witness :
    ((svp_reduction_ex (Except.error RedStatus.RED_ENUM_FAILURE)
        (ExState.mk RedStatus.RED_SUCCESS true)).2 = false ∧
      (svp_reduction_ex (Except.error RedStatus.RED_ENUM_FAILURE)
        (ExState.mk RedStatus.RED_SUCCESS true)).1.status = RedStatus.RED_ENUM_FAILURE ∧
      (svp_reduction_ex (Except.ok true)
        (ExState.mk RedStatus.RED_SUCCESS true)).2 = true ∧
      (svp_reduction_ex (Except.ok true)
        (ExState.mk RedStatus.RED_SUCCESS true)).1.clean = true) ∧
    ((tour_ex (Except.error RedStatus.RED_ENUM_FAILURE)
        (ExState.mk RedStatus.RED_SUCCESS true)).2 = false ∧
      (tour_ex (Except.error RedStatus.RED_ENUM_FAILURE)
        (ExState.mk RedStatus.RED_SUCCESS true)).1.status = RedStatus.RED_ENUM_FAILURE ∧
      (tour_ex (Except.ok true)
        (ExState.mk RedStatus.RED_SUCCESS true)).2 = true ∧
      (tour_ex (Except.ok true)
        (ExState.mk RedStatus.RED_SUCCESS true)).1.clean = true) ∧
    ((sd_tour_ex (Except.error RedStatus.RED_ENUM_FAILURE)
        (ExState.mk RedStatus.RED_SUCCESS true)).2 = false ∧
      (sd_tour_ex (Except.error RedStatus.RED_ENUM_FAILURE)
        (ExState.mk RedStatus.RED_SUCCESS true)).1.status = RedStatus.RED_ENUM_FAILURE ∧
      (sd_tour_ex (Except.ok true)
        (ExState.mk RedStatus.RED_SUCCESS true)).2 = true ∧
      (sd_tour_ex (Except.ok true)
        (ExState.mk RedStatus.RED_SUCCESS true)).1.clean = true) ∧
    ((hkz_ex (Except.error RedStatus.RED_ENUM_FAILURE)
        (ExState.mk RedStatus.RED_SUCCESS true)).2 = false ∧
      (hkz_ex (Except.error RedStatus.RED_ENUM_FAILURE)
        (ExState.mk RedStatus.RED_SUCCESS true)).1.status = RedStatus.RED_ENUM_FAILURE ∧
      (hkz_ex (Except.ok true)
        (ExState.mk RedStatus.RED_SUCCESS true)).2 = true ∧
      (hkz_ex (Except.ok true)
        (ExState.mk RedStatus.RED_SUCCESS true)).1.clean = true) ∧
    ((slide_tour_ex (Except.error RedStatus.RED_ENUM_FAILURE)
        (ExState.mk RedStatus.RED_SUCCESS true)).2 = false ∧
      (slide_tour_ex (Except.error RedStatus.RED_ENUM_FAILURE)
        (ExState.mk RedStatus.RED_SUCCESS true)).1.status = RedStatus.RED_ENUM_FAILURE ∧
      (slide_tour_ex (Except.ok true)
        (ExState.mk RedStatus.RED_SUCCESS true)).2 = true ∧
      (slide_tour_ex (Except.ok true)
        (ExState.mk RedStatus.RED_SUCCESS true)).1.clean = true) :=
  ex_wrappers_catch_and_status RedStatus.RED_ENUM_FAILURE true
    (ExState.mk RedStatus.RED_SUCCESS true) (by decide)

/-- C9: when the inner operation of an `_ex` wrapper throws a fault, the
`clean` out-parameter is not written: after the call it holds exactly the
value it held before the call.  This holds for all five wrappers. -/
theorem ex_wrappers_error_preserves_clean (e : RedStatus) (st : ExState) :
    (svp_reduction_ex (Except.error e) st).1.clean = st.clean ∧
    (tour_ex (Except.error e) st).1.clean = st.clean ∧
    (sd_tour_ex (Except.error e) st).1.clean = st.clean ∧
    (hkz_ex (Except.error e) st).1.clean = st.clean ∧
    (slide_tour_ex (Except.error e) st).1.clean = st.clean := by
  simp [svp_reduction_ex, tour_ex, sd_tour_ex, hkz_ex, slide_tour_ex, set_status]

/-- C10: when the inner operation of an `_ex` wrapper returns without a fault,
the `clean` out-parameter is overwritten with the inner return value
unconditionally, whatever value it held on entry; in particular a `false`
entry value is raised back to `true` when the inner reduction reports no
change.  This holds for all five wrappers. -/
theorem ex_wrappers_ok_overwrites_clean (c : Bool) (st : ExState) :
    ((svp_reduction_ex (Except.ok c) st).1.clean = c ∧
      (tour_ex (Except.ok c) st).1.clean = c ∧
      (sd_tour_ex (Except.ok c) st).1.clean = c ∧
      (hkz_ex (Except.ok c) st).1.clean = c ∧
      (slide_tour_ex (Except.ok c) st).1.clean = c) ∧
    (svp_reduction_ex (Except.ok true) (ExState.mk st.status false)).1.clean = true := by
  simp [svp_reduction_ex, tour_ex, sd_tour_ex, hkz_ex, slide_tour_ex]

/-- C1: the clean flag returned by `svp_reduction` is `false` iff the
post-call `r[kappa]` strictly decreases below the tolerance
`delta * r_old[kappa]` of its pre-call value, and `true` (no change counted)
otherwise. -/
theorem svp_reduction_clean_iff (delta : ℚ) (kappa : Nat)
    (inner : (Nat → ℚ) → (Nat → ℚ)) (r : Nat → ℚ) :
    ((svp_reduction delta kappa inner r).2 = false ↔
      (svp_reduction delta kappa inner r).1 kappa < delta * r kappa) ∧
    ((svp_reduction delta kappa inner r).2 = true ↔
      ¬ (svp_reduction delta kappa inner r).1 kappa < delta * r kappa) := by
  simp [svp_reduction, not_le, not_lt]

/-- C5: one step of `test_abort`: if the new slope satisfies
`new_slope > scale * old_slope` then `no_dec` is incremented and `old_slope`
kept, otherwise `no_dec` is reset to `0` and `old_slope` set to `new_slope`;
the call returns `true` iff the updated `no_dec` reaches `max_no_dec`; the
declared default arguments are `scale = 1.0` and `max_no_dec = 5`. -/
theorem test_abort_step (st : AutoAbortState) (new_slope scale : ℚ) (maxNoDec : Int) :
    (scale * st.old_slope < new_slope →
      (test_abort st new_slope scale maxNoDec).1.no_dec = st.no_dec + 1 ∧
      (test_abort st new_slope scale maxNoDec).1.old_slope = st.old_slope) ∧
    (¬ scale * st.old_slope < new_slope →
      (test_abort st new_slope scale maxNoDec).1.no_dec = 0 ∧
      (test_abort st new_slope scale maxNoDec).1.old_slope = new_slope) ∧
    ((test_abort st new_slope scale maxNoDec).2 = true ↔
      maxNoDec ≤ (test_abort st new_slope scale maxNoDec).1.no_dec) ∧
    test_abort_default_scale = 1 ∧ test_abort_default_max_no_dec = 5 := by
  by_cases h : scale * st.old_slope < new_slope <;>
    simp [test_abort, h, test_abort_default_scale, test_abort_default_max_no_dec]

/-- Witness for C5, exercising both the increment branch and the reset
branch at concrete slopes. -/
theorem test_abort_step_witness :
    ((test_abort (AutoAbortState.mk (-2) 3 10 0) (-1) 1 5).1.no_dec = 3 + 1 ∧
      (test_abort (AutoAbortState.mk (-2) 3 10 0) (-1) 1 5).1.old_slope = -2) ∧
    ((test_abort (AutoAbortState.mk (-2) 3 10 0) (-3) 1 5).1.no_dec = 0 ∧
      (test_abort (AutoAbortState.mk (-2) 3 10 0) (-3) 1 5).1.old_slope = -3) :=
  ⟨(test_abort_step (AutoAbortState.mk (-2) 3 10 0) (-1) 1 5).1 (by norm_num),
    (test_abort_step (AutoAbortState.mk (-2) 3 10 0) (-3) 1 5).2.1 (by norm_num)⟩

/-- C6: when `(max_row - min_row)` is not divisible by `beta`, `slide_tour`
reports a parameter fault synchronously, and the basis carried by the fault is
exactly the basis on entry (no mutation has happened). -/
theorem slide_tour_param_fault {α : Type} (min_row max_row beta : Int)
    (inner : α → α × Bool) (basis : α)
    (h : (max_row - min_row) % beta ≠ 0) :
    slide_tour min_row max_row beta inner basis = SlideOutcome.paramFault basis := by
  simp [slide_tour, h]

/-- Witness for C6: a range of length 5 with block size 2. -/
theorem slide_tour_param_fault_witness :
    slide_tour 0 5 2 (fun b : Int => (b + 1, false)) 7 = SlideOutcome.paramFault 7 :=
  slide_tour_param_fault 0 5 2 (fun b : Int => (b + 1, false)) 7 (by decide)

/-- C4 counterexample: the monitor is initialized with
`old_slope = numeric_limits<double>::max()`, the largest finite double, not
`+infinity`.  Consequently a first call to `test_abort` with
`scale = 1/2` and computed slope `(3/4) * DBL_MAX` takes the increment branch
and does not record the slope into `old_slope`, contradicting the claim that
the first call always records the computed slope. -/
theorem autoAbort_first_call_not_always_recording :
    (autoAbortInit 10 0).old_slope = dblMax ∧
    (test_abort (autoAbortInit 10 0) (3 / 4 * dblMax) (1 / 2) 5).1.old_slope = dblMax ∧
    dblMax ≠ 3 / 4 * dblMax ∧
    (test_abort (autoAbortInit 10 0) (3 / 4 * dblMax) (1 / 2) 5).1.old_slope
      ≠ 3 / 4 * dblMax := by
  refine ⟨rfl, ?_, ?_, ?_⟩ <;> norm_num [test_abort, autoAbortInit, dblMax]

/-- C4 (amended): the monitor is initialized with
`old_slope = numeric_limits<double>::max()` (the largest finite double) and
`no_dec = -1`; any first call to `test_abort` whose computed slope does not
exceed `scale * DBL_MAX` records the slope into `old_slope`, brings `no_dec`
from `-1` to `0`, and returns `false` whenever `max_no_dec >= 1`. -/
theorem autoAbort_init_and_first_call (num_rows start_row : Int)
    (new_slope scale : ℚ) (maxNoDec : Int)
    (hs : new_slope ≤ scale * dblMax) (hm : 1 ≤ maxNoDec) :
    (autoAbortInit num_rows start_row).old_slope = dblMax ∧
    (autoAbortInit num_rows start_row).no_dec = -1 ∧
    (test_abort (autoAbortInit num_rows start_row) new_slope scale maxNoDec).1.old_slope
      = new_slope ∧
    (test_abort (autoAbortInit num_rows start_row) new_slope scale maxNoDec).1.no_dec
      = 0 ∧
    (test_abort (autoAbortInit num_rows start_row) new_slope scale maxNoDec).2
      = false := by
  have hlt : ¬ scale * dblMax < new_slope := not_lt.mpr hs
  refine ⟨rfl, rfl, ?_, ?_, ?_⟩ <;>
    simp [test_abort, autoAbortInit, hlt] <;> omega

/-- Helper for C3: if iterations `j, ..., n-1` neither exhaust the time
budget, nor trigger auto-abort, nor fault, nor come back clean, then the loop
continues to the boundary of iteration `n` and stops there with
`RED_BKZ_LOOPS_LIMIT`, the basis being the result of the tours of iterations
`j` through `n-1`. -/
theorem bkz_loop_reaches_limit {α : Type} (env : DriverEnv α) (n : Nat)
    (hml : env.maxLoops = (n : Int)) (hpos : 0 < n) :
    ∀ fuel j b, j ≤ n → n - j < fuel →
      (∀ i, j ≤ i → i < n → env.tourRes i = Except.ok false) →
      (∀ i, j ≤ i → i < n → ¬ (env.maxTimeOn ∧ env.timeExceeded i = true)) →
      (∀ i, j ≤ i → i < n → ¬ (env.autoAbortOn ∧ 0 < i ∧ env.abortTest i = true)) →
      bkz_loop env fuel j b =
        some (RedStatus.RED_BKZ_LOOPS_LIMIT, tourIterFrom env j (n - j) b) := by
  intro fuel
  induction fuel with
  | zero => intro j b _ hfuel _ _ _; omega
  | succ fuel ih =>
    intro j b hj hfuel htour htime habort
    by_cases hjn : j = n
    · subst hjn
      have hguard : 0 < env.maxLoops ∧ env.maxLoops ≤ (j : Int) := by
        constructor <;> simp [hml] <;> omega
      simp [bkz_loop, hguard, Nat.sub_self, tourIterFrom]
    · have hjlt : j < n := lt_of_le_of_ne hj hjn
      have hguard : ¬ (0 < env.maxLoops ∧ env.maxLoops ≤ (j : Int)) := by
        rw [hml]; intro hc; have := hc.2; omega
      have htime1 := htime j le_rfl hjlt
      have habort1 := habort j le_rfl hjlt
      have hres := htour j le_rfl hjlt
      have hrec := ih (j + 1) (env.tourB j b) (by omega) (by omega)
        (fun i h1 h2 => htour i (by omega) h2)
        (fun i h1 h2 => htime i (by omega) h2)
        (fun i h1 h2 => habort i (by omega) h2)
      have hiter : tourIterFrom env j (n - j) b
          = tourIterFrom env (j + 1) (n - (j + 1)) (env.tourB j b) := by
        obtain ⟨k, hk⟩ : ∃ k, n - j = k + 1 := ⟨n - (j + 1), by omega⟩
        rw [hk]
        have hk2 : n - (j + 1) = k := by omega
        rw [hk2, tourIterFrom]
      rw [bkz_loop, if_neg hguard, if_neg htime1, if_neg habort1, hres, hiter]
      exact hrec

/-- C3: in the driver `bkz()`, when `max_loops = n > 0` and the first `n`
tours all run without fault, without coming back clean, and without tripping
the time or auto-abort checks, the loop stops at the boundary of iteration `n`
with status `RED_BKZ_LOOPS_LIMIT` -- regardless of the time and auto-abort
conditions at that boundary, since the loop check comes first; after the loop
one final LLL is applied to the basis, and `bkz()` returns `false` there
because the status is not `RED_SUCCESS` (in general the return value is
`status == RED_SUCCESS`, the second conjunct). -/
theorem bkz_stops_at_loops_limit {α : Type} (env : DriverEnv α) (n : Nat) (b0 : α)
    (hpos : 0 < n) (hml : env.maxLoops = (n : Int))
    (htour : ∀ i, i < n → env.tourRes i = Except.ok false)
    (htime : ∀ i, i < n → ¬ (env.maxTimeOn ∧ env.timeExceeded i = true))
    (habort : ∀ i, i < n → ¬ (env.autoAbortOn ∧ 0 < i ∧ env.abortTest i = true)) :
    (∀ fuel, n < fuel →
      bkz env fuel b0 =
        some (RedStatus.RED_BKZ_LOOPS_LIMIT,
          env.finalLLL (tourIterFrom env 0 n b0), false)) ∧
    (∀ fuel b1 stt bb rr, bkz env fuel b1 = some (stt, bb, rr) →
      rr = decide (stt = RedStatus.RED_SUCCESS)) := by
  constructor
  · intro fuel hfuel
    have h := bkz_loop_reaches_limit env n hml hpos fuel 0 b0 (by omega) (by omega)
      (fun i _ h2 => htour i h2) (fun i _ h2 => htime i h2)
      (fun i _ h2 => habort i h2)
    rw [bkz, h]
    simp
  · intro fuel b1 stt bb rr heq
    rw [bkz] at heq
    cases hcase : bkz_loop env fuel 0 b1 with
    | none => rw [hcase] at heq; exact absurd heq (by simp)
    | some p =>
      rw [hcase] at heq
      simp only [Option.some.injEq, Prod.mk.injEq] at heq
      rcases heq with ⟨h1, _, h3⟩
      rw [← h3, h1]

/-- Witness for C3 on the concrete trace `sampleDriverEnv`: two tours run
(each incrementing the basis counter), the loop stops with
`RED_BKZ_LOOPS_LIMIT` at the boundary of iteration 2 even though the time and
auto-abort conditions also hold there, the final LLL multiplies by 10, and
the driver returns `false`. -/
theorem bkz_stops_at_loops_limit_witness :
    bkz sampleDriverEnv 3 0 =
      some (RedStatus.RED_BKZ_LOOPS_LIMIT, 20, false) := by
  have h := (bkz_stops_at_loops_limit sampleDriverEnv 2 0 (by decide) (by decide)
    (fun i _ => rfl)
    (fun i hi => by simp [sampleDriverEnv]; omega)
    (fun i hi => by simp [sampleDriverEnv]; omega)).1 3 (by decide)
  rw [h]
  rfl

/-- Witness for the amended C4 at a realistic negative slope. -/
theorem autoAbort_init_and_first_call_witness :
    (autoAbortInit 10 0).old_slope = dblMax ∧
    (autoAbortInit 10 0).no_dec = -1 ∧
    (test_abort (autoAbortInit 10 0) (-5) 1 5).1.old_slope = -5 ∧
    (test_abort (autoAbortInit 10 0) (-5) 1 5).1.no_dec = 0 ∧
    (test_abort (autoAbortInit 10 0) (-5) 1 5).2 = false :=
  autoAbort_init_and_first_call 10 0 (-5) 1 5 (by norm_num [dblMax]) (by decide)

/-- Composing two matrix actions on a family is the action of the product. -/
theorem mulFam_mulFam {r s t : Nat} {V : Type} [AddCommGroup V]
    (A : Matrix (Fin r) (Fin s) Int) (T : Matrix (Fin s) (Fin t) Int)
    (f : Fin t → V) : mulFam A (mulFam T f) = mulFam (A * T) f := by
  funext i
  simp only [mulFam, Finset.smul_sum, smul_smul, Matrix.mul_apply, Finset.sum_smul]
  exact Finset.sum_comm

/-- The identity matrix acts trivially on a family. -/
theorem mulFam_one {n : Nat} {V : Type} [AddCommGroup V] (f : Fin n → V) :
    mulFam 1 f = f := by
  funext i
  simp [mulFam, Matrix.one_apply, ite_smul]

/-- Every row of `mulFam T f` is an integer combination of the `f k`, so the
integer span can only shrink. -/
theorem span_mulFam_le {r n : Nat} {V : Type} [AddCommGroup V]
    (T : Matrix (Fin r) (Fin n) Int) (f : Fin n → V) :
    span Int (range (mulFam T f)) ≤ span Int (range f) := by
  rw [Submodule.span_le]
  rintro x ⟨i, rfl⟩
  exact Submodule.sum_mem _ fun k _ =>
    Submodule.smul_mem _ _ (Submodule.subset_span ⟨k, rfl⟩)

/-- An integer matrix with unit determinant preserves the integer span of a
family of vectors. -/
theorem span_mulFam_of_isUnit {n : Nat} {V : Type} [AddCommGroup V]
    (T : Matrix (Fin n) (Fin n) Int) (f : Fin n → V) (h : IsUnit T.det) :
    span Int (range (mulFam T f)) = span Int (range f) := by
  refine le_antisymm (span_mulFam_le T f) ?_
  have hf : f = mulFam T⁻¹ (mulFam T f) := by
    rw [mulFam_mulFam, Matrix.nonsing_inv_mul T h, mulFam_one]
  calc span Int (range f) = span Int (range (mulFam T⁻¹ (mulFam T f))) := by rw [← hf]
    _ ≤ span Int (range (mulFam T f)) := span_mulFam_le _ _

/-- A unipotent lower triangular integer matrix has determinant 1. -/
theorem det_one_add_strictlyLower {n : Nat} (N : Matrix (Fin n) (Fin n) Int)
    (hN : StrictlyLower N) : (1 + N).det = 1 := by
  have htri : (1 + N).BlockTriangular OrderDual.toDual := by
    intro i j hij
    have hlt : i < j := hij
    rw [Matrix.add_apply, Matrix.one_apply_ne (ne_of_lt hlt), hN i j (le_of_lt hlt),
      add_zero]
  rw [Matrix.det_of_lowerTriangular _ htri]
  have hdiag : ∀ i : Fin n, (1 + N) i i = 1 := fun i => by
    rw [Matrix.add_apply, Matrix.one_apply_eq, hN i i le_rfl, add_zero]
  simp [hdiag]

/-- Precomposing a family with a permutation of the index set does not change
its range, hence not its span. -/
theorem range_perm_comp {n : Nat} {V : Type} (sigma : Equiv.Perm (Fin n))
    (B : Fin n → V) : range (fun i => B (sigma i)) = range B :=
  sigma.surjective.range_comp B

/-- C7: the transformation applied by `rerandomize_block` between the row
permutation and the final LLL is `1 + N`, a unit lower-triangular matrix with
entries in `{-1, 0, 1}`; it has determinant 1, hence is unimodular, and the
whole call (permutation, unimodular perturbation, LLL) leaves the integer
span of the basis rows unchanged. -/
theorem rerandomize_block_preserves_lattice {n : Nat} {V : Type} [AddCommGroup V]
    (sigma : Equiv.Perm (Fin n)) (N U : Matrix (Fin n) (Fin n) Int)
    (B : Fin n → V) (hN : StrictlyLower N) (hN101 : EntriesIn101 N)
    (hU : IsUnit U.det) :
    ((∀ i, (1 + N) i i = 1) ∧ EntriesIn101 (1 + N) ∧ (1 + N).det = 1) ∧
    span Int (range (rerandomize_block sigma N U B)) = span Int (range B) := by
  have hdet := det_one_add_strictlyLower N hN
  refine ⟨⟨?_, ?_, hdet⟩, ?_⟩
  · intro i
    rw [Matrix.add_apply, Matrix.one_apply_eq, hN i i le_rfl, add_zero]
  · intro i j
    by_cases hij : i = j
    · subst hij
      rw [Matrix.add_apply, Matrix.one_apply_eq, hN i i le_rfl, add_zero]
      exact Or.inr (Or.inr rfl)
    · rw [Matrix.add_apply, Matrix.one_apply_ne hij, zero_add]
      exact hN101 i j
  · rw [rerandomize_block, span_mulFam_of_isUnit U _ hU,
      span_mulFam_of_isUnit (1 + N) _ (by rw [hdet]; exact isUnit_one),
      range_perm_comp]

/-- Witness for C7 at a concrete 2x2 instance: swap the two rows of a
concrete integer basis, subtract the (new) first row from the second, and
LLL-reduce with a concrete unimodular matrix. -/
theorem rerandomize_block_preserves_lattice_witness :
    ((∀ i, (1 + Matrix.of ![![0, 0], ![-1, 0]] : Matrix (Fin 2) (Fin 2) Int) i i = 1) ∧
      EntriesIn101 (1 + Matrix.of ![![0, 0], ![-1, 0]] : Matrix (Fin 2) (Fin 2) Int) ∧
      (1 + Matrix.of ![![0, 0], ![-1, 0]] : Matrix (Fin 2) (Fin 2) Int).det = 1) ∧
    span Int (range (rerandomize_block (Equiv.swap 0 1)
        (Matrix.of ![![0, 0], ![-1, 0]]) (Matrix.of ![![1, 2], ![0, 1]])
        (fun i : Fin 2 => (fun j : Fin 2 => if i = j then (1 : Int) else 0)))) =
      span Int (range (fun i : Fin 2 => (fun j : Fin 2 => if i = j then (1 : Int) else 0))) :=
  rerandomize_block_preserves_lattice (Equiv.swap 0 1)
    (Matrix.of ![![0, 0], ![-1, 0]]) (Matrix.of ![![1, 2], ![0, 1]])
    (fun i : Fin 2 => (fun j : Fin 2 => if i = j then (1 : Int) else 0))
    (by unfold StrictlyLower; decide) (by unfold EntriesIn101; decide)
    (by rw [Matrix.det_fin_two]; norm_num)

/-- The inserted combination lies in the integer span of the block rows. -/
theorem combo_mem_span {n : Nat} {V : Type} [AddCommGroup V]
    (s : Fin n → Int) (B : Fin n → V) : combo s B ∈ span Int (range B) :=
  Submodule.sum_mem _ fun j _ =>
    Submodule.smul_mem _ _ (Submodule.subset_span ⟨j, rfl⟩)

/-- The integer combination rewritten with rational scalars. -/
theorem combo_cast {n : Nat} {V : Type} [AddCommGroup V] [Module ℚ V]
    (s : Fin n → Int) (B : Fin n → V) :
    combo s B = ∑ j, ((s j : ℚ)) • B j :=
  (Finset.sum_congr rfl fun j _ => Int.cast_smul_eq_zsmul ℚ (s j) (B j)).symm

/-- A row of a matrix action, rewritten with rational scalars. -/
theorem mulFam_cast_sum {r n : Nat} {V : Type} [AddCommGroup V] [Module ℚ V]
    (U : Matrix (Fin r) (Fin n) Int) (f : Fin n → V) (j : Fin r) :
    ∑ t, ((U j t : ℚ)) • f t = mulFam U f j :=
  Finset.sum_congr rfl fun t _ => Int.cast_smul_eq_zsmul ℚ (U j t) (f t)

/-- The unit-head insertion preserves the integer span of the block rows. -/
theorem span_unitHeadInsert {n : Nat} {V : Type} [AddCommGroup V]
    (s : Fin (n + 1) → Int) (k : Fin (n + 1)) (B : Fin (n + 1) → V)
    (hk : s k = 1 ∨ s k = -1) :
    span Int (range (unitHeadInsert s k B)) = span Int (range B) := by
  unfold unitHeadInsert
  rw [Fin.range_cons]
  have htail : ∀ j, j ≠ k →
      B j ∈ span Int (insert (combo s B) (range fun i : Fin n => B (k.succAbove i))) := by
    intro j hj
    obtain ⟨i2, hi2⟩ := Fin.exists_succAbove_eq hj
    refine Submodule.subset_span (Set.mem_insert_iff.mpr (Or.inr ⟨i2, ?_⟩))
    show B (k.succAbove i2) = B j
    rw [hi2]
  apply le_antisymm
  · rw [Submodule.span_le]
    intro x hx
    rcases Set.mem_insert_iff.mp hx with rfl | ⟨i, rfl⟩
    · exact combo_mem_span s B
    · exact Submodule.subset_span ⟨k.succAbove i, rfl⟩
  · rw [Submodule.span_le]
    rintro x ⟨j, rfl⟩
    by_cases hjk : j = k
    · have hvmem : combo s B ∈
          span Int (insert (combo s B) (range fun i : Fin n => B (k.succAbove i))) :=
        Submodule.subset_span (Set.mem_insert _ _)
      have htailsum : ∑ i in Finset.univ.erase k, s i • B i ∈
          span Int (insert (combo s B) (range fun i : Fin n => B (k.succAbove i))) :=
        Submodule.sum_mem _ fun i hi =>
          Submodule.smul_mem _ _ (htail i (Finset.mem_erase.mp hi).1)
      have hsplit : s k • B k = combo s B - ∑ i in Finset.univ.erase k, s i • B i := by
        rw [combo, ← Finset.add_sum_erase Finset.univ (fun i => s i • B i)
          (Finset.mem_univ k)]
        abel
      have hmem : s k • B k ∈
          span Int (insert (combo s B) (range fun i : Fin n => B (k.succAbove i))) := by
        rw [hsplit]; exact Submodule.sub_mem _ hvmem htailsum
      rw [hjk]
      rcases hk with h1 | h1 <;> rw [h1] at hmem
      · simpa using hmem
      · simpa using Submodule.neg_mem _ hmem
    · exact htail j hjk

/-- The unit-head insertion preserves linear independence of the block rows. -/
theorem linearIndependent_unitHeadInsert {n : Nat} {V : Type} [AddCommGroup V]
    [Module ℚ V] (s : Fin (n + 1) → Int) (k : Fin (n + 1)) (B : Fin (n + 1) → V)
    (hq : LinearIndependent ℚ B) (hk : s k = 1 ∨ s k = -1) :
    LinearIndependent ℚ (unitHeadInsert s k B) := by
  unfold unitHeadInsert
  rw [linearIndependent_fin_cons]
  refine ⟨hq.comp _ Fin.succAbove_right_injective, ?_⟩
  intro hmem
  have hrange : range (fun i : Fin n => B (k.succAbove i)) = B '' ({k}ᶜ) := by
    rw [show (fun i : Fin n => B (k.succAbove i)) = B ∘ k.succAbove from rfl,
      Set.range_comp, Fin.range_succAbove]
  rw [hrange] at hmem
  have htailsum : ∑ j in Finset.univ.erase k, ((s j : ℚ)) • B j ∈
      span ℚ (B '' ({k}ᶜ)) :=
    Submodule.sum_mem _ fun j hj =>
      Submodule.smul_mem _ _ (Submodule.subset_span
        ⟨j, by simp [(Finset.mem_erase.mp hj).1], rfl⟩)
  have hsplit : ((s k : ℚ)) • B k
      = combo s B - ∑ j in Finset.univ.erase k, ((s j : ℚ)) • B j := by
    rw [combo_cast, ← Finset.add_sum_erase Finset.univ (fun j => ((s j : ℚ)) • B j)
      (Finset.mem_univ k)]
    abel
  have hskmem : ((s k : ℚ)) • B k ∈ span ℚ (B '' ({k}ᶜ)) := by
    rw [hsplit]; exact Submodule.sub_mem _ hmem htailsum
  have hBk : B k ∈ span ℚ (B '' ({k}ᶜ)) := by
    rcases hk with h1 | h1 <;> rw [h1] at hskmem
    · simpa using hskmem
    · simpa using Submodule.neg_mem _ hskmem
  exact hq.not_mem_span_image (by simp) hBk

/-- Coefficients of any rational dependency of the extended family: the
kernel of the extension is spanned by `genericW s`, so every dependency is a
multiple of it. -/
theorem extend_dependency_coeffs {n : Nat} {V : Type} [AddCommGroup V] [Module ℚ V]
    (s : Fin (n + 1) → Int) (B : Fin (n + 1) → V) (hq : LinearIndependent ℚ B)
    (d : Fin (n + 2) → ℚ) (hd : ∑ t, d t • extendInsert s B t = 0) :
    ∀ t, d t = d 0 * genericW s t := by
  rw [Fin.sum_univ_succ] at hd
  simp only [extendInsert, Fin.cons_zero, Fin.cons_succ] at hd
  rw [combo_cast, Finset.smul_sum] at hd
  simp only [smul_smul] at hd
  rw [← Finset.sum_add_distrib] at hd
  have hcoe : ∀ j : Fin (n + 1), d 0 * ((s j : ℚ)) + d j.succ = 0 := by
    have hind := Fintype.linearIndependent_iff.mp hq
      (fun j => d 0 * ((s j : ℚ)) + d j.succ)
    apply hind
    rw [← hd]
    exact Finset.sum_congr rfl fun j _ => by rw [add_smul]
  intro t
  refine Fin.cases ?_ ?_ t
  · simp [genericW]
  · intro j
    have := hcoe j
    simp only [genericW, Fin.cons_succ]
    linarith

/-- A square integer matrix whose determinant is a unit has no zero row. -/
theorem exists_entry_ne_zero_of_isUnit {r : Nat} (U : Matrix (Fin r) (Fin r) Int)
    (hU : IsUnit U.det) (j : Fin r) : ¬ ∀ t, U j t = 0 := by
  intro hrow
  rw [Matrix.det_eq_zero_of_row_eq_zero j hrow] at hU
  rcases Int.isUnit_iff.mp hU with h | h <;> norm_num at h

/-- Row vectors in the left kernel of an invertible integer matrix (viewed
over the rationals) vanish. -/
theorem cast_vecMul_injective {r : Nat} (U : Matrix (Fin r) (Fin r) Int)
    (hU : IsUnit U.det) (x : Fin r → ℚ)
    (hx : ∀ t, ∑ j, x j * ((U j t : ℚ)) = 0) : ∀ j, x j = 0 := by
  set Uq : Matrix (Fin r) (Fin r) ℚ := U.map Int.cast with hUq
  have hdet : Uq.det = ((U.det : ℚ)) := by
    rw [hUq, show (U.map Int.cast : Matrix (Fin r) (Fin r) ℚ)
      = (Int.castRingHom ℚ).mapMatrix U from rfl]
    exact ((Int.castRingHom ℚ).map_det U).symm
  have hdetu : IsUnit Uq.det := by
    rcases Int.isUnit_iff.mp hU with h | h <;> rw [hdet, h] <;> norm_num
  have hv : Matrix.vecMul x Uq = 0 := by
    funext t
    simpa [Matrix.vecMul, Matrix.dotProduct, hUq, Matrix.map_apply] using hx t
  have hx0 : x = 0 := by
    have h1 : Matrix.vecMul (Matrix.vecMul x Uq) Uq⁻¹ = x := by
      rw [Matrix.vecMul_vecMul, Matrix.mul_nonsing_inv Uq hdetu, Matrix.vecMul_one]
    rw [hv, Matrix.zero_vecMul] at h1
    exact h1.symm
  intro j
  rw [hx0]
  rfl

/-- The rational row of `U` at a zero row of the transformed extended family
is proportional to the dependency pattern `genericW s`. -/
theorem zero_row_coeffs {n : Nat} {V : Type} [AddCommGroup V] [Module ℚ V]
    (s : Fin (n + 1) → Int) (B : Fin (n + 1) → V) (hq : LinearIndependent ℚ B)
    (U : Matrix (Fin (n + 2)) (Fin (n + 2)) Int) (z2 : Fin (n + 2))
    (hz : mulFam U (extendInsert s B) z2 = 0) :
    ∀ t, ((U z2 t : ℚ)) = ((U z2 0 : ℚ)) * genericW s t := by
  have hd : ∑ t, ((U z2 t : ℚ)) • extendInsert s B t = 0 := by
    rw [mulFam_cast_sum]; exact hz
  exact extend_dependency_coeffs s B hq (fun t => ((U z2 t : ℚ))) hd

/-- The head coefficient of the `U`-row at a zero row cannot vanish when `U`
is unimodular. -/
theorem zero_row_head_ne_zero {n : Nat} {V : Type} [AddCommGroup V] [Module ℚ V]
    (s : Fin (n + 1) → Int) (B : Fin (n + 1) → V) (hq : LinearIndependent ℚ B)
    (U : Matrix (Fin (n + 2)) (Fin (n + 2)) Int) (hU : IsUnit U.det)
    (z2 : Fin (n + 2)) (hz : mulFam U (extendInsert s B) z2 = 0) :
    ((U z2 0 : ℚ)) ≠ 0 := by
  intro h0
  apply exists_entry_ne_zero_of_isUnit U hU z2
  intro t
  have h := zero_row_coeffs s B hq U z2 hz t
  rw [h0, zero_mul] at h
  exact_mod_cast h

/-- The generic insertion preserves the integer span of the block rows. -/
theorem span_genericInsert {n : Nat} {V : Type} [AddCommGroup V]
    (s : Fin (n + 1) → Int) (U : Matrix (Fin (n + 2)) (Fin (n + 2)) Int)
    (z : Fin (n + 2)) (B : Fin (n + 1) → V) (hU : IsUnit U.det)
    (hz : mulFam U (extendInsert s B) z = 0) :
    span Int (range (genericInsert s U z B)) = span Int (range B) := by
  have h1 : span Int (range (mulFam U (extendInsert s B))) = span Int (range B) := by
    rw [span_mulFam_of_isUnit U _ hU]
    unfold extendInsert
    rw [Fin.range_cons, Submodule.span_insert_eq_span (combo_mem_span s B)]
  apply le_antisymm
  · rw [← h1, Submodule.span_le]
    rintro x ⟨i, rfl⟩
    exact Submodule.subset_span ⟨z.succAbove i, rfl⟩
  · rw [← h1, Submodule.span_le]
    rintro x ⟨i, rfl⟩
    by_cases hiz : i = z
    · subst hiz
      rw [hz]
      exact Submodule.zero_mem _
    · obtain ⟨i2, hi2⟩ := Fin.exists_succAbove_eq hiz
      exact Submodule.subset_span ⟨i2, by rw [genericInsert, hi2]⟩

/-- The generic insertion preserves linear independence of the block rows. -/
theorem linearIndependent_genericInsert {n : Nat} {V : Type} [AddCommGroup V]
    [Module ℚ V] (s : Fin (n + 1) → Int)
    (U : Matrix (Fin (n + 2)) (Fin (n + 2)) Int) (z : Fin (n + 2))
    (B : Fin (n + 1) → V) (hq : LinearIndependent ℚ B) (hU : IsUnit U.det)
    (hz : mulFam U (extendInsert s B) z = 0) :
    LinearIndependent ℚ (genericInsert s U z B) := by
  rw [Fintype.linearIndependent_iff]
  intro c hc
  have hrowz := zero_row_coeffs s B hq U z hz
  have hz0 := zero_row_head_ne_zero s B hq U hU z hz
  set d2 : Fin (n + 2) → ℚ := fun t => ∑ i, c i * ((U (z.succAbove i) t : ℚ)) with hd2
  have hd2sum : ∑ t, d2 t • extendInsert s B t = 0 := by
    calc ∑ t, d2 t • extendInsert s B t
        = ∑ t, ∑ i, (c i * ((U (z.succAbove i) t : ℚ))) • extendInsert s B t := by
          refine Finset.sum_congr rfl fun t _ => ?_
          rw [hd2, Finset.sum_smul]
      _ = ∑ i, ∑ t, (c i * ((U (z.succAbove i) t : ℚ))) • extendInsert s B t :=
          Finset.sum_comm
      _ = ∑ i, c i • ∑ t, ((U (z.succAbove i) t : ℚ)) • extendInsert s B t := by
          refine Finset.sum_congr rfl fun i _ => ?_
          rw [Finset.smul_sum]
          exact Finset.sum_congr rfl fun t _ => by rw [smul_smul]
      _ = ∑ i, c i • genericInsert s U z B i := by
          refine Finset.sum_congr rfl fun i _ => ?_
          rw [mulFam_cast_sum, genericInsert]
      _ = 0 := hc
  have hd2w := extend_dependency_coeffs s B hq d2 hd2sum
  set chat : Fin (n + 2) → ℚ := z.insertNth (-(d2 0 / ((U z 0 : ℚ)))) c with hchat
  have hchatker : ∀ t, ∑ j, chat j * ((U j t : ℚ)) = 0 := by
    intro t
    rw [Fin.sum_univ_succAbove (fun j => chat j * ((U j t : ℚ))) z]
    simp only [hchat, Fin.insertNth_apply_same, Fin.insertNth_apply_succAbove]
    have hsum2 : ∑ i, c i * ((U (z.succAbove i) t : ℚ)) = d2 t := by rw [hd2]
    rw [hsum2, hrowz t, hd2w t]
    field_simp
    ring
  have hall := cast_vecMul_injective U hU chat hchatker
  intro i
  have hi := hall (z.succAbove i)
  rwa [hchat, Fin.insertNth_apply_succAbove] at hi

/-- The zero row produced by the generic insertion's LLL is unique: two zero
rows of the transformed extended family coincide. -/
theorem genericInsert_zero_row_unique {n : Nat} {V : Type} [AddCommGroup V]
    [Module ℚ V] (s : Fin (n + 1) → Int)
    (U : Matrix (Fin (n + 2)) (Fin (n + 2)) Int) (z z2 : Fin (n + 2))
    (B : Fin (n + 1) → V) (hq : LinearIndependent ℚ B) (hU : IsUnit U.det)
    (hz : mulFam U (extendInsert s B) z = 0)
    (hz2 : mulFam U (extendInsert s B) z2 = 0) : z2 = z := by
  by_contra hne
  have h1 := zero_row_coeffs s B hq U z hz
  have h2 := zero_row_coeffs s B hq U z2 hz2
  have hz0 := zero_row_head_ne_zero s B hq U hU z hz
  have hz20 := zero_row_head_ne_zero s B hq U hU z2 hz2
  set x : Fin (n + 2) → ℚ := fun t =>
    (if t = z then ((U z2 0 : ℚ)) else 0) - (if t = z2 then ((U z 0 : ℚ)) else 0)
    with hxdef
  have hx : ∀ t, ∑ j, x j * ((U j t : ℚ)) = 0 := by
    intro t
    simp only [hxdef, sub_mul, Finset.sum_sub_distrib, ite_mul, zero_mul]
    rw [Finset.sum_ite_eq' Finset.univ z (fun j => ((U z2 0 : ℚ)) * ((U j t : ℚ))),
      Finset.sum_ite_eq' Finset.univ z2 (fun j => ((U z 0 : ℚ)) * ((U j t : ℚ)))]
    simp only [Finset.mem_univ, if_true]
    rw [h1 t, h2 t]
    ring
  have hxz := cast_vecMul_injective U hU x hx z
  have hxzval : x z = ((U z2 0 : ℚ)) := by
    simp [hxdef, Ne.symm hne]
  exact hz20 (by rw [← hxzval]; exact hxz)

/-- C8: postprocessing keeps the block a basis of the same lattice.  For a
solution with a unit head at `k` (`s k = +-1`, `s j = 0` beyond `k`), the
direct insertion `unitHeadInsert` -- insert the combination at the head,
drop the dependent row `k` -- preserves the integer span and introduces no
linear dependency.  For a generic solution `sg`, the extension to `beta + 1`
vectors followed by a unimodular LLL pass `U` produces exactly one zero row
(position `z`, and no other), and removing it yields a family with the same
integer span and no linear dependency. -/
theorem svp_postprocessing_no_dependencies {n : Nat} {V : Type} [AddCommGroup V]
    [Module ℚ V] (s sg : Fin (n + 1) → Int) (k : Fin (n + 1))
    (U : Matrix (Fin (n + 2)) (Fin (n + 2)) Int) (z : Fin (n + 2))
    (B : Fin (n + 1) → V) (hq : LinearIndependent ℚ B)
    (hk : s k = 1 ∨ s k = -1) (hktail : ∀ j, k < j → s j = 0)
    (hU : IsUnit U.det) (hz : mulFam U (extendInsert sg B) z = 0) :
    (span Int (range (unitHeadInsert s k B)) = span Int (range B) ∧
      LinearIndependent ℚ (unitHeadInsert s k B)) ∧
    (span Int (range (genericInsert sg U z B)) = span Int (range B) ∧
      LinearIndependent ℚ (genericInsert sg U z B)) ∧
    (∀ z2, mulFam U (extendInsert sg B) z2 = 0 → z2 = z) :=
  ⟨⟨span_unitHeadInsert s k B hk, linearIndependent_unitHeadInsert s k B hq hk⟩,
    ⟨span_genericInsert sg U z B hU hz,
      linearIndependent_genericInsert sg U z B hq hU hz⟩,
    fun z2 hz2 => genericInsert_zero_row_unique sg U z z2 B hq hU hz hz2⟩

/-- Witness for C8 on a concrete two-row block: the unit-head solution
`(0, 1)`, the generic solution `(2, 3)` with its reducing unimodular matrix,
and the zero row at position 0. -/
theorem svp_postprocessing_no_dependencies_witness :
    (span Int (range (unitHeadInsert sampleS 1 sampleBasis))
        = span Int (range sampleBasis) ∧
      LinearIndependent ℚ (unitHeadInsert sampleS 1 sampleBasis)) ∧
    (span Int (range (genericInsert sampleSg sampleU 0 sampleBasis))
        = span Int (range sampleBasis) ∧
      LinearIndependent ℚ (genericInsert sampleSg sampleU 0 sampleBasis)) ∧
    (∀ z2, mulFam sampleU (extendInsert sampleSg sampleBasis) z2 = 0 → z2 = 0) := by
  have hq : LinearIndependent ℚ sampleBasis := by
    rw [Fintype.linearIndependent_iff]
    intro g hg i
    have h0 := congrFun hg 0
    have h1 := congrFun hg 1
    simp [sampleBasis, Fin.sum_univ_two] at h0 h1
    fin_cases i
    · exact h0
    · exact h1
  have hU : IsUnit sampleU.det := by
    rw [show sampleU.det = 1 by decide]
    exact isUnit_one
  have hz : mulFam sampleU (extendInsert sampleSg sampleBasis) 0 = 0 := by
    funext j
    fin_cases j <;>
      simp [mulFam, extendInsert, combo, sampleU, sampleSg, sampleBasis,
        Fin.sum_univ_succ]
  exact svp_postprocessing_no_dependencies sampleS sampleSg 1 sampleU 0 sampleBasis
    hq (by decide) (by decide) hU hz

end BKZ
